import Mathlib

/-!
Shallow embedding of the project-orchestration layer of the bundler core:
`packages/next-swc/crates/next-api/src/project.rs` and
`packages/next-swc/crates/next-core/src/next_dynamic/dynamic_module.rs`.

Pathnames are `String`s; the `IndexMap` of routes is embedded as an
insertion-ordered association list, with the `entry` semantics of
`IndexMap` (an occupied entry is overwritten in place, a vacant entry is
appended at the end).
-/

/-- A route pathname, as in `IndexMap<String, Route>`. -/
abbrev Pathname := String

/-- `Route` from `next-api/src/route.rs` (the enum itself is outside the
excerpt). Modelled from the spec: a polymorphic value, one of a concrete
endpoint (opaque to this core, indexed here by a natural number) or
`Conflict`. -/
inductive Route where
  | endpoint (e : Nat)
  | conflict
deriving DecidableEq, Repr

/-- The insertion-ordered `IndexMap<String, Route>` of `entrypoints`,
as an association list in insertion order. -/
abbrev RoutesMap := List (Pathname × Route)

/-- The key sequence of a routes map, in insertion order. -/
def keysOf (m : RoutesMap) : List Pathname := m.map Prod.fst

/-- `IndexMap` lookup: the value at the first (and, for well-formed maps,
only) entry whose key matches. -/
def imLookup : RoutesMap → Pathname → Option Route
  | [], _ => none
  | kv :: m, k => if kv.1 = k then some kv.2 else imLookup m k

/-- `IndexMap::insert` semantics as used by `IndexMap::extend`: an existing
key keeps its position and its value is overwritten; a new key is appended
at the end. -/
def imSet (m : RoutesMap) (kv : Pathname × Route) : RoutesMap :=
  if kv.1 ∈ keysOf m then
    m.map (fun p => if p.1 = kv.1 then (p.1, kv.2) else p)
  else
    m ++ [kv]

/-- `routes.extend(app_routes.iter())` in `Project::entrypoints`. -/
def imExtend (m : RoutesMap) (kvs : RoutesMap) : RoutesMap :=
  kvs.foldl imSet m

/-- One iteration of the pages loop of `Project::entrypoints`:
`match routes.entry(pathname) { Occupied(e) => *e.get_mut() = Route::Conflict,
Vacant(e) => e.insert(page_route) }`. -/
def mergeStep (m : RoutesMap) (kv : Pathname × Route) : RoutesMap :=
  if kv.1 ∈ keysOf m then
    m.map (fun p => if p.1 = kv.1 then (p.1, Route.conflict) else p)
  else
    m ++ [kv]

/-- The route merge of `Project::entrypoints`: seed with the app routes when
an app project is present, then fold the pages routes through the
occupied/vacant match. -/
def entrypointRoutes (app : Option RoutesMap) (pages : RoutesMap) : RoutesMap :=
  let seed : RoutesMap :=
    match app with
    | some appRoutes => imExtend [] appRoutes
    | none => []
  pages.foldl mergeStep seed

/-- `Entrypoints` from `next-api/src/entrypoints.rs` (outside the excerpt).
Modelled from the spec: a pathname-to-route mapping with insertion order
preserved, and an optional middleware marker, always empty in this core. -/
structure Entrypoints where
  routes : RoutesMap
  middleware : Option Unit
deriving DecidableEq, Repr

/-- `Project::entrypoints`: the merged routes with `middleware: None`. -/
def entrypoints (app : Option RoutesMap) (pages : RoutesMap) : Entrypoints :=
  { routes := entrypointRoutes app pages, middleware := none }

/-- Number of times a pathname occurs as a key in an enumeration of routes. -/
def keyCount (k : Pathname) : RoutesMap → Nat
  | [] => 0
  | kv :: ps => (if kv.1 = k then 1 else 0) + keyCount k ps

/-!
`Project::project_path`. Paths are embedded as lists of characters;
`MAIN_SEPARATOR` is the `sep` parameter.
-/

/-- `str::strip_prefix(pat)` on a string pattern: `some` of the suffix when
the string starts with `pat`, `none` otherwise. -/
def stripPreList : List Char → List Char → Option (List Char)
  | s, [] => some s
  | [], _ :: _ => none
  | c :: s, p :: ps => if c = p then stripPreList s ps else none

/-- `str::strip_prefix(MAIN_SEPARATOR).unwrap_or(..)`: drop one leading
separator character when present. -/
def stripLeadingSep (sep : Char) : List Char → List Char
  | [] => []
  | c :: cs => if c = sep then cs else c :: cs

/-- `str::replace(MAIN_SEPARATOR, "/")`: replace every separator character
by a forward slash. -/
def replaceChar (sep : Char) : List Char → List Char
  | [] => []
  | c :: cs => (if c = sep then '/' else c) :: replaceChar sep cs

/-- Outcome of the relative-path computation. `ok rel` carries the relative
segment that `Project::project_path` joins under the project filesystem
root (the join itself is `turbo-tasks-fs` code, outside the excerpt);
`recoverableError` is an error result reported to the caller (an `Err`);
`panic` is an unrecoverable failure (`Option::unwrap` on `None`). -/
inductive PathOutcome where
  | ok (rel : List Char)
  | recoverableError (msg : String)
  | panic
deriving DecidableEq, Repr

/-- `Project::project_path`:
`this.project_path.strip_prefix(&this.root_path).unwrap()`, then strip one
leading `MAIN_SEPARATOR`, then replace every `MAIN_SEPARATOR` by `/`. The
`unwrap` panics when `project_path` does not start with `root_path`. -/
def project_path (sep : Char) (rootPath projPath : List Char) : PathOutcome :=
  match stripPreList projPath rootPath with
  | none => PathOutcome.panic
  | some rel => PathOutcome.ok (replaceChar sep (stripLeadingSep sep rel))

/-!
`Project::new`. The configuration parser (`NextConfig::from_string`) is
external to the excerpt.
-/

/-- Failure of external configuration parsing. -/
inductive ConfigError where
  | parseFailure (msg : String)
deriving DecidableEq, Repr

/-- A parsed configuration, opaque to this core. -/
structure NextConfig where
  cfgId : Nat
deriving DecidableEq, Repr

/-- `NextMode` from `next-core` (outside the excerpt): this core always uses
the development mode. -/
inductive NextMode where
  | development
  | build
deriving DecidableEq, Repr

/-- The fixed browserslist query literal of `Project::new`. -/
def defaultBrowserslistQuery : String :=
  "last 1 Chrome versions, last 1 Firefox versions, last 1 Safari versions, last 1 Edge versions"

/-- `ProjectOptions` from `project.rs`. -/
structure ProjectOptions where
  root_path : List Char
  project_path : List Char
  next_config : String
  watch : Bool
  memory_limit : Option Nat

/-- The `Project` value constructed by `Project::new`. -/
structure Project where
  root_path : List Char
  project_path : List Char
  watch : Bool
  next_config : NextConfig
  browserslist_query : String
  mode : NextMode
deriving DecidableEq, Repr

/-- Filesystem side effects this core can initiate directly; `Project::new`
performs none of them (contrast `project_fs` and `node_fs`, which create
disk filesystems and start watchers). -/
inductive FsAccess where
  | diskNew (name : String) (path : List Char)
  | watchStart
  | virtualNew
deriving DecidableEq, Repr

/-- `Project::new`, instrumented with the list of filesystem accesses its
body performs (none: the body only parses the config and builds the cell).
Modelled from the spec: `NextConfig::from_string` is external and is passed
in as `parseConfig`, failing with a `ConfigError` on malformed input, the
failure surfacing at construction. -/
def Project.new (parseConfig : String → Except ConfigError NextConfig)
    (options : ProjectOptions) : Except ConfigError Project × List FsAccess :=
  (match parseConfig options.next_config with
   | Except.error e => Except.error e
   | Except.ok cfg =>
      Except.ok
        { root_path := options.root_path
          project_path := options.project_path
          watch := options.watch
          next_config := cfg
          browserslist_query := defaultBrowserslistQuery
          mode := NextMode.development },
   [])

/-!
The layered chunking-context accessors `ssr_chunking_context`,
`ssr_data_chunking_context`, `rsc_chunking_context`. The base
`BuildChunkingContext` and `ChunkingContext::with_layer` are external to
the excerpt; `with_layer` is passed in as a function returning a
type-erased context.
-/

/-- A `BuildChunkingContext` handle, opaque except for identity. -/
structure BuildChunkingContext where
  baseId : Nat
  layer : Option String
deriving DecidableEq, Repr

/-- A type-erased `Vc<Box<dyn ChunkingContext>>`: either the build kind or
some other concrete kind. -/
inductive DynChunkingContext where
  | build (c : BuildChunkingContext)
  | otherKind (devId : Nat)
deriving DecidableEq, Repr

/-- `Vc::try_resolve_downcast_type::<BuildChunkingContext>`: succeeds
exactly when the erased context is of the build kind. -/
def tryDowncastBuild : DynChunkingContext → Option BuildChunkingContext
  | DynChunkingContext.build c => some c
  | DynChunkingContext.otherKind _ => none

/-- The error message attached when the downcast fails. -/
def layerTypeMsg : String :=
  "with_layer should not change the type of the chunking context"

/-- `Project::ssr_chunking_context`: derive the `"ssr"` layer from the base
server context and downcast back to `BuildChunkingContext`, failing fatally
with the invariant message otherwise. -/
def ssr_chunking_context
    (withLayer : BuildChunkingContext → String → DynChunkingContext)
    (base : BuildChunkingContext) : Except String BuildChunkingContext :=
  match tryDowncastBuild (withLayer base "ssr") with
  | some c => Except.ok c
  | none => Except.error layerTypeMsg

/-- `Project::ssr_data_chunking_context`: the same derivation with the
`"ssr data"` layer. -/
def ssr_data_chunking_context
    (withLayer : BuildChunkingContext → String → DynChunkingContext)
    (base : BuildChunkingContext) : Except String BuildChunkingContext :=
  match tryDowncastBuild (withLayer base "ssr data") with
  | some c => Except.ok c
  | none => Except.error layerTypeMsg

/-- `Project::rsc_chunking_context`: the same derivation with the `"rsc"`
layer. -/
def rsc_chunking_context
    (withLayer : BuildChunkingContext → String → DynChunkingContext)
    (base : BuildChunkingContext) : Except String BuildChunkingContext :=
  match tryDowncastBuild (withLayer base "rsc") with
  | some c => Except.ok c
  | none => Except.error layerTypeMsg

/-!
`NextDynamicEntryModule` from `dynamic_module.rs`. The wrapped module, the
sidecast to `ChunkableModule`, `as_root_chunk` and `chunk_group` are all
external; the sidecast result is carried on the module, the other two are
passed in as functions.
-/

/-- A `ChunkableModule` view of a module, opaque except for identity. -/
structure ChunkableModule where
  chunkableId : Nat
deriving DecidableEq, Repr

/-- A `Vc<Box<dyn Module>>` (the source's `Module` trait object; `Module`
itself is taken by Mathlib), opaque except for identity and for whether the
sidecast to `ChunkableModule` succeeds (`chunkableView`). -/
structure DynModule where
  moduleId : Nat
  chunkableView : Option ChunkableModule
deriving DecidableEq, Repr

/-- `NextDynamicEntryModule`: the marker wraps a reference to an existing
module. -/
structure NextDynamicEntryModule where
  client_entry_module : DynModule
deriving DecidableEq, Repr

/-- An `EcmascriptChunk` handle, opaque. -/
structure Chunk where
  chunkVal : Nat
deriving DecidableEq, Repr

/-- An `OutputAssets` set of output bundle descriptors, opaque. -/
structure OutputAssets where
  assetIds : List Nat
deriving DecidableEq, Repr

/-- `NextDynamicEntryModule::client_chunks`: sidecast the wrapped module to
`ChunkableModule` (bailing when it is not chunkable), make it the root of a
new chunk group under the given context, and return the resulting output
assets. -/
def client_chunks
    (as_root_chunk : ChunkableModule → DynChunkingContext → Chunk)
    (chunk_group : DynChunkingContext → Chunk → OutputAssets)
    (self : NextDynamicEntryModule)
    (client_chunking_context : DynChunkingContext) : Except String OutputAssets :=
  match self.client_entry_module.chunkableView with
  | none => Except.error "dynamic client asset must be chunkable"
  | some m =>
      Except.ok (chunk_group client_chunking_context
        (as_root_chunk m client_chunking_context))

/-- An `AssetContent`, opaque: `content` never produces one. -/
structure AssetContent where
  contentVal : Nat
deriving DecidableEq, Repr

/-- A single asset reference (graph edge), opaque. -/
structure AssetReference where
  refVal : Nat
deriving DecidableEq, Repr

/-- `<NextDynamicEntryModule as Asset>::content`: always bails with the
marker message. -/
def NextDynamicEntryModule.content (_self : NextDynamicEntryModule) :
    Except String AssetContent :=
  Except.error "NextDynamicEntryModule has no content"

/-- `<NextDynamicEntryModule as Asset>::references`:
`AssetReferences::empty()`. -/
def NextDynamicEntryModule.references (_self : NextDynamicEntryModule) :
    List AssetReference :=
  []

/-!
Lemmas about the insertion-ordered map operations.
-/

theorem keysOf_append (m n : RoutesMap) : keysOf (m ++ n) = keysOf m ++ keysOf n :=
  List.map_append _ _ _

theorem keysOf_overwrite (m : RoutesMap) (k : Pathname) (v : Route) :
    keysOf (m.map (fun p => if p.1 = k then (p.1, v) else p)) = keysOf m := by
  induction m with
  | nil => rfl
  | cons hd tl ih =>
      simp only [List.map_cons, keysOf] at ih ⊢
      by_cases h : hd.1 = k <;> simp [h, ih]

theorem imLookup_eq_none (m : RoutesMap) (k : Pathname) :
    imLookup m k = none ↔ k ∉ keysOf m := by
  induction m with
  | nil => simp [imLookup, keysOf]
  | cons hd tl ih =>
      by_cases h : hd.1 = k
      · subst h
        simp [imLookup, keysOf]
      · have h2 : ¬(k = hd.1) := fun hk => h hk.symm
        simp [imLookup, keysOf, h, h2, ih]

theorem imLookup_append (m n : RoutesMap) (k : Pathname) :
    imLookup (m ++ n) k = if k ∈ keysOf m then imLookup m k else imLookup n k := by
  induction m with
  | nil => simp [imLookup, keysOf]
  | cons hd tl ih =>
      by_cases h : hd.1 = k
      · subst h
        simp [imLookup, keysOf]
      · have h2 : ¬(k = hd.1) := fun hk => h hk.symm
        simp only [imLookup, keysOf, List.map_cons, List.cons_append, if_neg h, ih]
        by_cases h3 : k ∈ List.map Prod.fst tl
        · simp [List.mem_cons, h2, h3, ih, keysOf]
        · simp [List.mem_cons, h2, h3, ih, keysOf]

theorem imLookup_overwrite_self (m : RoutesMap) (k : Pathname) (v : Route)
    (h : k ∈ keysOf m) :
    imLookup (m.map (fun p => if p.1 = k then (p.1, v) else p)) k = some v := by
  induction m with
  | nil => simp [keysOf] at h
  | cons hd tl ih =>
      by_cases h1 : hd.1 = k
      · simp [imLookup, h1]
      · have h2 : k ∈ keysOf tl := by
          have h3 : ¬(k = hd.1) := fun hk => h1 hk.symm
          simpa [keysOf, h3] using h
        simp [imLookup, h1, ih h2]

theorem imLookup_overwrite_ne (m : RoutesMap) (k k0 : Pathname) (v : Route)
    (h : k ≠ k0) :
    imLookup (m.map (fun p => if p.1 = k0 then (p.1, v) else p)) k = imLookup m k := by
  induction m with
  | nil => rfl
  | cons hd tl ih =>
      by_cases h1 : hd.1 = k0
      · have h3 : ¬(k0 = k) := fun hk => h hk.symm
        simp [imLookup, h1, h3, ih]
      · simp only [List.map_cons, if_neg h1]
        by_cases h2 : hd.1 = k <;> simp [imLookup, h2, ih]

theorem imLookup_mem (m : RoutesMap) (k : Pathname) (v : Route)
    (h : imLookup m k = some v) : (k, v) ∈ m := by
  induction m with
  | nil => simp [imLookup] at h
  | cons hd tl ih =>
      by_cases h1 : hd.1 = k
      · simp only [imLookup, if_pos h1, Option.some.injEq] at h
        have h2 : hd = (k, v) := by
          cases hd
          simp_all
        rw [← h2]
        exact List.mem_cons_self _ _
      · simp only [imLookup, if_neg h1] at h
        exact List.mem_cons_of_mem _ (ih h)

theorem keysOf_mergeStep (m : RoutesMap) (kv : Pathname × Route) :
    keysOf (mergeStep m kv) =
      if kv.1 ∈ keysOf m then keysOf m else keysOf m ++ [kv.1] := by
  unfold mergeStep
  by_cases h : kv.1 ∈ keysOf m
  · rw [if_pos h, if_pos h, keysOf_overwrite]
  · rw [if_neg h, if_neg h, keysOf_append]
    rfl

theorem mem_keysOf_mergeStep (m : RoutesMap) (kv : Pathname × Route) (k : Pathname) :
    k ∈ keysOf (mergeStep m kv) ↔ k ∈ keysOf m ∨ k = kv.1 := by
  rw [keysOf_mergeStep]
  by_cases h : kv.1 ∈ keysOf m
  · simp only [if_pos h]
    constructor
    · exact Or.inl
    · rintro (hk | hk)
      · exact hk
      · exact hk ▸ h
  · simp [if_neg h, List.mem_append]

theorem imLookup_mergeStep_ne (m : RoutesMap) (kv : Pathname × Route) (k : Pathname)
    (h : k ≠ kv.1) :
    imLookup (mergeStep m kv) k = imLookup m k := by
  by_cases h1 : kv.1 ∈ keysOf m
  · simp only [mergeStep, if_pos h1]
    exact imLookup_overwrite_ne m k kv.1 Route.conflict h
  · simp only [mergeStep, if_neg h1]
    rw [imLookup_append]
    by_cases h2 : k ∈ keysOf m
    · simp [h2]
    · have h3 : ¬(kv.1 = k) := fun hk => h hk.symm
      rw [if_neg h2, (imLookup_eq_none m k).2 h2]
      simp [imLookup, h3]

theorem imLookup_mergeStep_self_mem (m : RoutesMap) (kv : Pathname × Route)
    (h : kv.1 ∈ keysOf m) :
    imLookup (mergeStep m kv) kv.1 = some Route.conflict := by
  simp only [mergeStep, if_pos h]
  exact imLookup_overwrite_self m kv.1 Route.conflict h

theorem imLookup_mergeStep_self_not_mem (m : RoutesMap) (kv : Pathname × Route)
    (h : kv.1 ∉ keysOf m) :
    imLookup (mergeStep m kv) kv.1 = some kv.2 := by
  simp only [mergeStep, if_neg h]
  rw [imLookup_append, if_neg h]
  simp [imLookup]

theorem nodup_keysOf_mergeStep (m : RoutesMap) (kv : Pathname × Route)
    (h : (keysOf m).Nodup) : (keysOf (mergeStep m kv)).Nodup := by
  rw [keysOf_mergeStep]
  by_cases h1 : kv.1 ∈ keysOf m
  · simpa [if_pos h1] using h
  · rw [if_neg h1]
    rw [List.nodup_append]
    exact ⟨h, List.nodup_singleton _, by
      intro a ha hb
      simp only [List.mem_singleton] at hb
      exact h1 (hb ▸ ha)⟩

theorem keyCount_eq_zero (k : Pathname) (ps : RoutesMap) :
    keyCount k ps = 0 ↔ k ∉ keysOf ps := by
  induction ps with
  | nil => simp [keyCount, keysOf]
  | cons q rest ih =>
      by_cases h : q.1 = k
      · simp [keyCount, keysOf, h, ih]
      · have h2 : ¬(k = q.1) := fun hk => h hk.symm
        simp [keyCount, keysOf, h, h2, ih]

theorem keyCount_of_nodup (k : Pathname) (ps : RoutesMap)
    (hp : (keysOf ps).Nodup) (hk : k ∈ keysOf ps) : keyCount k ps = 1 := by
  induction ps with
  | nil => simp [keysOf] at hk
  | cons q rest ih =>
      have hq : q.1 ∉ keysOf rest := by
        have := hp
        simp only [keysOf, List.map_cons, List.nodup_cons] at this
        exact this.1
      have hp2 : (keysOf rest).Nodup := by
        have := hp
        simp only [keysOf, List.map_cons, List.nodup_cons] at this
        exact this.2
      by_cases h : q.1 = k
      · have hr : k ∉ keysOf rest := h ▸ hq
        simp [keyCount, h, (keyCount_eq_zero k rest).2 hr]
      · have h2 : ¬(k = q.1) := fun hk2 => h hk2.symm
        have hr : k ∈ keysOf rest := by
          simpa [keysOf, List.mem_cons, h2] using hk
        simp [keyCount, h, ih hp2 hr]

theorem imLookup_foldl_mem (ps : RoutesMap) (m : RoutesMap) (k : Pathname)
    (hm : k ∈ keysOf m) :
    imLookup (ps.foldl mergeStep m) k =
      if k ∈ keysOf ps then some Route.conflict else imLookup m k := by
  induction ps generalizing m with
  | nil => simp [keysOf]
  | cons q rest ih =>
      rw [List.foldl_cons, ih (mergeStep m q) ((mem_keysOf_mergeStep m q k).2 (Or.inl hm))]
      by_cases h1 : k = q.1
      · have hmem : k ∈ keysOf (q :: rest) := by simp [keysOf, h1]
        rw [if_pos hmem]
        by_cases h2 : k ∈ keysOf rest
        · rw [if_pos h2]
        · rw [if_neg h2]
          have h3 := imLookup_mergeStep_self_mem m q (h1 ▸ hm)
          rw [h1, h3]
      · have hiff : k ∈ keysOf (q :: rest) ↔ k ∈ keysOf rest := by
          simp [keysOf, List.mem_cons, h1]
        rw [imLookup_mergeStep_ne m q k h1]
        by_cases h2 : k ∈ keysOf rest
        · rw [if_pos h2, if_pos (hiff.2 h2)]
        · rw [if_neg h2, if_neg (fun hx => h2 (hiff.1 hx))]

theorem imLookup_foldl_not_mem (ps : RoutesMap) (m : RoutesMap) (k : Pathname)
    (hm : k ∉ keysOf m) :
    imLookup (ps.foldl mergeStep m) k =
      if keyCount k ps = 0 then none
      else if keyCount k ps = 1 then imLookup ps k
      else some Route.conflict := by
  induction ps generalizing m with
  | nil => simp [keyCount, (imLookup_eq_none m k).2 hm]
  | cons q rest ih =>
      rw [List.foldl_cons]
      by_cases h1 : q.1 = k
      · have hv : q.1 ∉ keysOf m := h1 ▸ hm
        have hmem : k ∈ keysOf (mergeStep m q) :=
          (mem_keysOf_mergeStep m q k).2 (Or.inr h1.symm)
        rw [imLookup_foldl_mem rest (mergeStep m q) k hmem]
        have hcount : keyCount k (q :: rest) = 1 + keyCount k rest := by
          simp [keyCount, h1]
        by_cases h2 : k ∈ keysOf rest
        · have hc : keyCount k rest ≠ 0 := fun hc0 => ((keyCount_eq_zero k rest).1 hc0) h2
          rw [if_pos h2, hcount]
          have hne0 : 1 + keyCount k rest ≠ 0 := by omega
          have hne1 : 1 + keyCount k rest ≠ 1 := by omega
          rw [if_neg hne0, if_neg hne1]
        · have hc0 : keyCount k rest = 0 := (keyCount_eq_zero k rest).2 h2
          rw [if_neg h2, hcount, hc0]
          have hlk := imLookup_mergeStep_self_not_mem m q hv
          rw [h1] at hlk
          rw [hlk]
          simp [imLookup, h1]
      · have hm2 : k ∉ keysOf (mergeStep m q) := by
          rw [mem_keysOf_mergeStep]
          rintro (hx | hx)
          · exact hm hx
          · exact h1 hx.symm
        rw [ih (mergeStep m q) hm2]
        have hcount : keyCount k (q :: rest) = keyCount k rest := by
          simp [keyCount, h1]
        rw [hcount]
        simp [imLookup, h1]

theorem nodup_keysOf_foldl (ps : RoutesMap) (m : RoutesMap)
    (hm : (keysOf m).Nodup) : (keysOf (ps.foldl mergeStep m)).Nodup := by
  induction ps generalizing m with
  | nil => exact hm
  | cons q rest ih =>
      rw [List.foldl_cons]
      exact ih (mergeStep m q) (nodup_keysOf_mergeStep m q hm)

theorem keysOf_foldl (ps : RoutesMap) (m : RoutesMap)
    (hp : (keysOf ps).Nodup) :
    keysOf (ps.foldl mergeStep m) =
      keysOf m ++ (keysOf ps).filter (fun k => decide (k ∉ keysOf m)) := by
  induction ps generalizing m with
  | nil => simp [keysOf]
  | cons q rest ih =>
      have hq : q.1 ∉ keysOf rest := by
        have := hp
        simp only [keysOf, List.map_cons, List.nodup_cons] at this
        exact this.1
      have hp2 : (keysOf rest).Nodup := by
        have := hp
        simp only [keysOf, List.map_cons, List.nodup_cons] at this
        exact this.2
      rw [List.foldl_cons, ih (mergeStep m q) hp2, keysOf_mergeStep]
      have hfilter : keysOf (q :: rest) = q.1 :: keysOf rest := rfl
      by_cases h : q.1 ∈ keysOf m
      · rw [if_pos h, hfilter, List.filter_cons]
        simp [h]
      · rw [if_neg h, hfilter, List.filter_cons]
        have hcongr :
            (keysOf rest).filter (fun k => decide (k ∉ keysOf m ++ [q.1])) =
              (keysOf rest).filter (fun k => decide (k ∉ keysOf m)) := by
          apply List.filter_congr
          intro x hx
          have hxq : x ≠ q.1 := fun he => hq (he ▸ hx)
          simp [List.mem_append, hxq]
        rw [List.append_assoc, hcongr]
        simp [h]

theorem foldl_mergeStep_disjoint (ps : RoutesMap) (m : RoutesMap)
    (hp : (keysOf ps).Nodup)
    (hd : ∀ x, x ∈ keysOf ps → x ∉ keysOf m) :
    ps.foldl mergeStep m = m ++ ps := by
  induction ps generalizing m with
  | nil => simp
  | cons q rest ih =>
      have hqm : q.1 ∉ keysOf m := hd q.1 (by simp [keysOf])
      have hq : q.1 ∉ keysOf rest := by
        have := hp
        simp only [keysOf, List.map_cons, List.nodup_cons] at this
        exact this.1
      have hp2 : (keysOf rest).Nodup := by
        have := hp
        simp only [keysOf, List.map_cons, List.nodup_cons] at this
        exact this.2
      have hstep : mergeStep m q = m ++ [q] := by
        unfold mergeStep
        rw [if_neg hqm]
      have hd2 : ∀ x, x ∈ keysOf rest → x ∉ keysOf (m ++ [q]) := by
        intro x hx
        rw [keysOf_append, List.mem_append]
        rintro (hmem | hmem)
        · exact hd x (List.mem_cons_of_mem _ hx) hmem
        · have hxq : x = q.1 := by simpa [keysOf] using hmem
          exact hq (hxq ▸ hx)
      rw [List.foldl_cons, hstep, ih (m ++ [q]) hp2 hd2, List.append_assoc]
      rfl

theorem foldl_imSet_disjoint (ps : RoutesMap) (m : RoutesMap)
    (hp : (keysOf ps).Nodup)
    (hd : ∀ x, x ∈ keysOf ps → x ∉ keysOf m) :
    imExtend m ps = m ++ ps := by
  induction ps generalizing m with
  | nil => simp [imExtend]
  | cons q rest ih =>
      have hqm : q.1 ∉ keysOf m := hd q.1 (by simp [keysOf])
      have hq : q.1 ∉ keysOf rest := by
        have := hp
        simp only [keysOf, List.map_cons, List.nodup_cons] at this
        exact this.1
      have hp2 : (keysOf rest).Nodup := by
        have := hp
        simp only [keysOf, List.map_cons, List.nodup_cons] at this
        exact this.2
      have hstep : imSet m q = m ++ [q] := by
        unfold imSet
        rw [if_neg hqm]
      have hd2 : ∀ x, x ∈ keysOf rest → x ∉ keysOf (m ++ [q]) := by
        intro x hx
        rw [keysOf_append, List.mem_append]
        rintro (hmem | hmem)
        · exact hd x (List.mem_cons_of_mem _ hx) hmem
        · have hxq : x = q.1 := by simpa [keysOf] using hmem
          exact hq (hxq ▸ hx)
      rw [imExtend, List.foldl_cons, hstep]
      have hrest := ih (m ++ [q]) hp2 hd2
      unfold imExtend at hrest
      rw [hrest, List.append_assoc]
      rfl

theorem imExtend_nil_eq (app : RoutesMap) (hA : (keysOf app).Nodup) :
    imExtend [] app = app := by
  have h := foldl_imSet_disjoint app [] hA (by intro x hx; simp [keysOf])
  simpa using h

theorem entrypointRoutes_some (app pages : RoutesMap) :
    entrypointRoutes (some app) pages = pages.foldl mergeStep (imExtend [] app) := rfl

theorem entrypointRoutes_none (pages : RoutesMap) :
    entrypointRoutes none pages = pages.foldl mergeStep [] := rfl

theorem entrypointRoutes_eq_foldl (app : Option RoutesMap) (pages : RoutesMap) :
    entrypointRoutes app pages = pages.foldl mergeStep (imExtend [] (app.getD [])) := by
  cases app <;> rfl

/-!
Lemmas about the relative-path helpers.
-/

theorem stripPreList_of_isPrefixOf (pat s : List Char)
    (h : pat.isPrefixOf s = true) :
    stripPreList s pat = some (s.drop pat.length) := by
  induction pat generalizing s with
  | nil => simp [stripPreList]
  | cons p pr ih =>
      cases s with
      | nil => simp [List.isPrefixOf] at h
      | cons c cs =>
          simp only [List.isPrefixOf, Bool.and_eq_true, beq_iff_eq] at h
          obtain ⟨h1, h2⟩ := h
          simp [stripPreList, h1.symm, ih cs h2]

theorem stripPreList_of_not_isPrefixOf (pat s : List Char)
    (h : pat.isPrefixOf s = false) :
    stripPreList s pat = none := by
  induction pat generalizing s with
  | nil => simp [List.isPrefixOf] at h
  | cons p pr ih =>
      cases s with
      | nil => simp [stripPreList]
      | cons c cs =>
          by_cases h1 : c = p
          · rw [h1] at h
            simp only [List.isPrefixOf, beq_self_eq_true, Bool.true_and] at h
            simp [stripPreList, h1, ih cs h]
          · simp [stripPreList, h1]

/-!
Claim theorems.
-/

/-- C1: For every app-route map and pages-route map given to the entrypoint
merge (sources being maps: duplicate-free keys, and registering only
concrete endpoint routes, never `Conflict`), every pathname in the result
maps to exactly one Route (the result key sequence is duplicate-free), and
that Route is `Conflict` iff both the app source and the pages source
registered that pathname; otherwise it is the route contributed by the
unique source that registered it, and pathnames registered by neither
source are absent. -/
theorem entrypoints_merge_conflict_iff
    (app : Option RoutesMap) (pages : RoutesMap)
    (hA : (keysOf (app.getD [])).Nodup) (hP : (keysOf pages).Nodup)
    (hcA : ∀ kv, kv ∈ app.getD [] → kv.2 ≠ Route.conflict)
    (hcP : ∀ kv, kv ∈ pages → kv.2 ≠ Route.conflict) :
    (keysOf (entrypoints app pages).routes).Nodup ∧
    (∀ p : Pathname,
      (p ∈ keysOf (app.getD []) → p ∈ keysOf pages →
        imLookup (entrypoints app pages).routes p = some Route.conflict) ∧
      (p ∈ keysOf (app.getD []) → p ∉ keysOf pages →
        imLookup (entrypoints app pages).routes p = imLookup (app.getD []) p) ∧
      (p ∉ keysOf (app.getD []) → p ∈ keysOf pages →
        imLookup (entrypoints app pages).routes p = imLookup pages p) ∧
      (p ∉ keysOf (app.getD []) → p ∉ keysOf pages →
        imLookup (entrypoints app pages).routes p = none) ∧
      (imLookup (entrypoints app pages).routes p = some Route.conflict ↔
        p ∈ keysOf (app.getD []) ∧ p ∈ keysOf pages)) := by
  have hseed : (entrypoints app pages).routes = pages.foldl mergeStep (app.getD []) := by
    show entrypointRoutes app pages = _
    rw [entrypointRoutes_eq_foldl, imExtend_nil_eq _ hA]
  constructor
  · rw [hseed]
    exact nodup_keysOf_foldl pages _ hA
  · intro p
    have hcase1 : p ∈ keysOf (app.getD []) → p ∈ keysOf pages →
        imLookup (entrypoints app pages).routes p = some Route.conflict := by
      intro h1 h2
      rw [hseed, imLookup_foldl_mem pages _ p h1, if_pos h2]
    have hcase2 : p ∈ keysOf (app.getD []) → p ∉ keysOf pages →
        imLookup (entrypoints app pages).routes p = imLookup (app.getD []) p := by
      intro h1 h2
      rw [hseed, imLookup_foldl_mem pages _ p h1, if_neg h2]
    have hcase3 : p ∉ keysOf (app.getD []) → p ∈ keysOf pages →
        imLookup (entrypoints app pages).routes p = imLookup pages p := by
      intro h1 h2
      rw [hseed, imLookup_foldl_not_mem pages _ p h1,
        keyCount_of_nodup p pages hP h2]
      norm_num
    have hcase4 : p ∉ keysOf (app.getD []) → p ∉ keysOf pages →
        imLookup (entrypoints app pages).routes p = none := by
      intro h1 h2
      rw [hseed, imLookup_foldl_not_mem pages _ p h1,
        (keyCount_eq_zero p pages).2 h2]
      norm_num
    refine ⟨hcase1, hcase2, hcase3, hcase4, ?_, ?_⟩
    · intro hconf
      by_cases h1 : p ∈ keysOf (app.getD []) <;> by_cases h2 : p ∈ keysOf pages
      · exact ⟨h1, h2⟩
      · exfalso
        rw [hcase2 h1 h2] at hconf
        exact hcA _ (imLookup_mem _ _ _ hconf) rfl
      · exfalso
        rw [hcase3 h1 h2] at hconf
        exact hcP _ (imLookup_mem _ _ _ hconf) rfl
      · exfalso
        rw [hcase4 h1 h2] at hconf
        exact Option.noConfusion hconf
    · rintro ⟨h1, h2⟩
      exact hcase1 h1 h2

/-- C2: For route maps with disjoint pathname sets (and no `Conflict`
values among the sources), the entrypoint merge is the ordered union of the
two maps with no `Conflict` entries; merging any app map with an empty
pages map returns the app map unchanged, and merging an absent app source
with any pages map returns the pages map unchanged. -/
theorem entrypoints_disjoint_union
    (app pages : RoutesMap)
    (hA : (keysOf app).Nodup) (hP : (keysOf pages).Nodup)
    (hdisj : ∀ k, k ∈ keysOf app → k ∉ keysOf pages)
    (hcA : ∀ kv, kv ∈ app → kv.2 ≠ Route.conflict)
    (hcP : ∀ kv, kv ∈ pages → kv.2 ≠ Route.conflict) :
    (entrypoints (some app) pages).routes = app ++ pages ∧
    (∀ kv, kv ∈ (entrypoints (some app) pages).routes → kv.2 ≠ Route.conflict) ∧
    (entrypoints (some app) []).routes = app ∧
    (entrypoints none pages).routes = pages := by
  have hseed : (entrypoints (some app) pages).routes = pages.foldl mergeStep app := by
    show entrypointRoutes (some app) pages = _
    rw [entrypointRoutes_some, imExtend_nil_eq app hA]
  have hd2 : ∀ x, x ∈ keysOf pages → x ∉ keysOf app := fun x hx hax => hdisj x hax hx
  have hunion : (entrypoints (some app) pages).routes = app ++ pages := by
    rw [hseed]
    exact foldl_mergeStep_disjoint pages app hP hd2
  refine ⟨hunion, ?_, ?_, ?_⟩
  · intro kv hkv
    rw [hunion] at hkv
    rcases List.mem_append.1 hkv with h | h
    · exact hcA kv h
    · exact hcP kv h
  · show entrypointRoutes (some app) [] = app
    rw [entrypointRoutes_some, imExtend_nil_eq app hA]
    rfl
  · show entrypointRoutes none pages = pages
    rw [entrypointRoutes_none]
    have h := foldl_mergeStep_disjoint pages [] hP (fun x _ => by simp [keysOf])
    simpa using h

/-- C9: For every pages-route enumeration containing the same pathname
twice (at least two occurrences of the key), the entrypoint merge maps that
pathname to `Conflict` — for any app source, including an absent one: the
overwrite-with-Conflict branch fires whenever the pathname is already in
the result, whether the existing entry came from the app source or from an
earlier pages entry. -/
theorem entrypoints_pages_duplicate_conflict
    (app : Option RoutesMap) (pages : RoutesMap) (p : Pathname)
    (h2 : 2 ≤ keyCount p pages) :
    imLookup (entrypoints app pages).routes p = some Route.conflict := by
  have hseed : (entrypoints app pages).routes =
      pages.foldl mergeStep (imExtend [] (app.getD [])) :=
    entrypointRoutes_eq_foldl app pages
  rw [hseed]
  by_cases hm : p ∈ keysOf (imExtend [] (app.getD []))
  · rw [imLookup_foldl_mem pages _ p hm]
    have hmemP : p ∈ keysOf pages := by
      by_contra hn
      have h0 := (keyCount_eq_zero p pages).2 hn
      omega
    rw [if_pos hmemP]
  · rw [imLookup_foldl_not_mem pages _ p hm]
    have hne0 : keyCount p pages ≠ 0 := by omega
    have hne1 : keyCount p pages ≠ 1 := by omega
    rw [if_neg hne0, if_neg hne1]

/-- C10: When a pages-sourced pathname collides with an app-sourced one,
the `Conflict` entry keeps the insertion position the pathname received
from the app source, and the relative order of all other entries is
unchanged: the merged key sequence is the app keys in their original
order followed by the pages keys not present in the app source, in pages
enumeration order, and every app-sourced pathname keeps its original
index. -/
theorem entrypoints_preserves_order
    (app pages : RoutesMap)
    (hA : (keysOf app).Nodup) (hP : (keysOf pages).Nodup) :
    keysOf (entrypoints (some app) pages).routes =
      keysOf app ++ (keysOf pages).filter (fun k => decide (k ∉ keysOf app)) ∧
    (∀ p, p ∈ keysOf app →
      (keysOf (entrypoints (some app) pages).routes).indexOf p =
        (keysOf app).indexOf p) := by
  have hseed : (entrypoints (some app) pages).routes = pages.foldl mergeStep app := by
    show entrypointRoutes (some app) pages = _
    rw [entrypointRoutes_some, imExtend_nil_eq app hA]
  have hkeys : keysOf (entrypoints (some app) pages).routes =
      keysOf app ++ (keysOf pages).filter (fun k => decide (k ∉ keysOf app)) := by
    rw [hseed]
    exact keysOf_foldl pages app hP
  refine ⟨hkeys, ?_⟩
  intro p hp
  rw [hkeys]
  exact List.indexOf_append_of_mem hp

/-- C3: For every rootPath and every projectPath that literally begins with
rootPath, the project-relative path computation returns (for re-joining
under the project filesystem root) the suffix of projectPath after
removing the rootPath front, with one leading path separator stripped if
present and every remaining platform separator replaced by a forward
slash; in particular the pair "/r", "/r/sub/app" yields the segment
"sub/app" and the pair "/r", "/r" yields the empty segment. -/
theorem project_path_strip (sep : Char) (rootPath projPath : List Char)
    (h : rootPath.isPrefixOf projPath = true) :
    project_path sep rootPath projPath =
      PathOutcome.ok
        (replaceChar sep (stripLeadingSep sep (projPath.drop rootPath.length))) ∧
    project_path '/' "/r".data "/r/sub/app".data = PathOutcome.ok "sub/app".data ∧
    project_path '/' "/r".data "/r".data = PathOutcome.ok [] := by
  refine ⟨?_, by decide, by decide⟩
  unfold project_path
  rw [stripPreList_of_isPrefixOf rootPath projPath h]

theorem project_path_strip_witness :
    ("/r".data).isPrefixOf "/r/sub/app".data = true ∧
    project_path '/' "/r".data "/r/sub/app".data =
      PathOutcome.ok
        (replaceChar '/' (stripLeadingSep '/' (("/r/sub/app".data).drop ("/r".data).length))) :=
  ⟨by decide, (project_path_strip '/' "/r".data "/r/sub/app".data (by decide)).1⟩

/-- C4 counterexample: at rootPath "/r" and projectPath "/other" the
relative-path computation does not return a reported, recoverable
PathError result: it panics (the `unwrap` of `strip_prefix` fails), an
unrecoverable failure. -/
theorem project_path_not_nested_cex :
    project_path '/' "/r".data "/other".data = PathOutcome.panic := by decide

/-- C4 (amended): for every rootPath and every projectPath that does not
begin with rootPath, the relative-path computation fails unrecoverably
(the `unwrap` of `strip_prefix` panics) rather than producing a
recoverable error result; validating and reporting a PathError is what §7
prescribes for a reimplementation, not what this code does. -/
theorem project_path_not_nested_panics (sep : Char) (rootPath projPath : List Char)
    (h : rootPath.isPrefixOf projPath = false) :
    project_path sep rootPath projPath = PathOutcome.panic := by
  unfold project_path
  rw [stripPreList_of_not_isPrefixOf rootPath projPath h]

theorem project_path_not_nested_panics_witness :
    ("/r".data).isPrefixOf "/other".data = false ∧
    project_path '/' "/r".data "/other".data = PathOutcome.panic :=
  ⟨by decide, project_path_not_nested_panics '/' "/r".data "/other".data (by decide)⟩

/-- C5: Project construction parses rawConfig and fails with the
ConfigError exactly when parsing fails; when parsing succeeds it returns a
Project whose browserslist query is the fixed default string and whose
mode is the fixed development value (all other fields copied from the
options), and the construction body performs no filesystem access. -/
theorem project_new_spec
    (parseConfig : String → Except ConfigError NextConfig)
    (options : ProjectOptions) :
    (Project.new parseConfig options).2 = [] ∧
    (∀ e, parseConfig options.next_config = Except.error e →
      (Project.new parseConfig options).1 = Except.error e) ∧
    (∀ cfg, parseConfig options.next_config = Except.ok cfg →
      (Project.new parseConfig options).1 = Except.ok
        { root_path := options.root_path
          project_path := options.project_path
          watch := options.watch
          next_config := cfg
          browserslist_query := defaultBrowserslistQuery
          mode := NextMode.development }) ∧
    (∀ p, (Project.new parseConfig options).1 = Except.ok p →
      p.browserslist_query = defaultBrowserslistQuery ∧
      p.mode = NextMode.development) := by
  refine ⟨rfl, ?_, ?_, ?_⟩
  · intro e he
    simp [Project.new, he]
  · intro cfg hc
    simp [Project.new, hc]
  · intro p hp
    simp only [Project.new] at hp
    cases hpc : parseConfig options.next_config with
    | error e =>
        rw [hpc] at hp
        exact absurd hp (by simp)
    | ok cfg =>
        rw [hpc] at hp
        simp only [Except.ok.injEq] at hp
        rw [← hp]
        exact ⟨rfl, rfl⟩

theorem project_new_spec_witness :
    ((Project.new (fun _ => Except.ok { cfgId := 0 })
        { root_path := "/r".data, project_path := "/r/sub".data,
          next_config := "cfg", watch := false, memory_limit := none }).1 =
      Except.ok
        { root_path := "/r".data, project_path := "/r/sub".data,
          watch := false, next_config := { cfgId := 0 },
          browserslist_query := defaultBrowserslistQuery,
          mode := NextMode.development }) ∧
    ((Project.new (fun s => Except.error (ConfigError.parseFailure s))
        { root_path := "/r".data, project_path := "/r/sub".data,
          next_config := "bad", watch := false, memory_limit := none }).1 =
      Except.error (ConfigError.parseFailure "bad")) ∧
    ((Project.new (fun _ => Except.ok { cfgId := 0 })
        { root_path := "/r".data, project_path := "/r/sub".data,
          next_config := "cfg", watch := false, memory_limit := none }).2 = []) :=
  ⟨(project_new_spec _ _).2.2.1 { cfgId := 0 } rfl,
   (project_new_spec _ _).2.1 _ rfl,
   (project_new_spec _ _).1⟩

/-- C6: each of the three layered chunking-context accessors derives from
the base server chunking context a variant tagged with its fixed
discriminator string ("ssr", "ssr data", "rsc" respectively) and succeeds
exactly when the derived variant is still the base's concrete kind
(`BuildChunkingContext`); when layering changed the concrete kind, the
accessor fails fatally with the invariant message instead of returning a
context. -/
theorem layered_chunking_context_spec
    (withLayer : BuildChunkingContext → String → DynChunkingContext)
    (base : BuildChunkingContext) :
    (∀ c, ssr_chunking_context withLayer base = Except.ok c ↔
      withLayer base "ssr" = DynChunkingContext.build c) ∧
    (ssr_chunking_context withLayer base = Except.error layerTypeMsg ↔
      tryDowncastBuild (withLayer base "ssr") = none) ∧
    (∀ c, ssr_data_chunking_context withLayer base = Except.ok c ↔
      withLayer base "ssr data" = DynChunkingContext.build c) ∧
    (ssr_data_chunking_context withLayer base = Except.error layerTypeMsg ↔
      tryDowncastBuild (withLayer base "ssr data") = none) ∧
    (∀ c, rsc_chunking_context withLayer base = Except.ok c ↔
      withLayer base "rsc" = DynChunkingContext.build c) ∧
    (rsc_chunking_context withLayer base = Except.error layerTypeMsg ↔
      tryDowncastBuild (withLayer base "rsc") = none) := by
  refine ⟨?_, ?_, ?_, ?_, ?_, ?_⟩
  · intro c
    unfold ssr_chunking_context
    cases hwl : withLayer base "ssr" <;> simp [tryDowncastBuild]
  · unfold ssr_chunking_context
    cases hwl : withLayer base "ssr" <;> simp [tryDowncastBuild]
  · intro c
    unfold ssr_data_chunking_context
    cases hwl : withLayer base "ssr data" <;> simp [tryDowncastBuild]
  · unfold ssr_data_chunking_context
    cases hwl : withLayer base "ssr data" <;> simp [tryDowncastBuild]
  · intro c
    unfold rsc_chunking_context
    cases hwl : withLayer base "rsc" <;> simp [tryDowncastBuild]
  · unfold rsc_chunking_context
    cases hwl : withLayer base "rsc" <;> simp [tryDowncastBuild]

theorem layered_chunking_context_spec_witness :
    ssr_chunking_context
      (fun b s => DynChunkingContext.build { baseId := b.baseId, layer := some s })
      { baseId := 0, layer := none } =
      Except.ok { baseId := 0, layer := some "ssr" } ∧
    rsc_chunking_context (fun _ _ => DynChunkingContext.otherKind 7)
      { baseId := 0, layer := none } = Except.error layerTypeMsg :=
  ⟨((layered_chunking_context_spec _ _).1 _).2 rfl,
   ((layered_chunking_context_spec
      (fun _ _ => DynChunkingContext.otherKind 7)
      { baseId := 0, layer := none }).2.2.2.2.2).2 rfl⟩

/-- C7: clientChunks on a dynamic marker module fails with the
chunkability error exactly when the wrapped module does not support being
split into chunks (the sidecast to `ChunkableModule` fails), and otherwise
returns the output bundle descriptors obtained by resolving the wrapped
module as the root of a new chunk group under the given context. -/
theorem client_chunks_spec
    (as_root_chunk : ChunkableModule → DynChunkingContext → Chunk)
    (chunk_group : DynChunkingContext → Chunk → OutputAssets)
    (self : NextDynamicEntryModule) (ctx : DynChunkingContext) :
    (self.client_entry_module.chunkableView = none →
      client_chunks as_root_chunk chunk_group self ctx =
        Except.error "dynamic client asset must be chunkable") ∧
    (∀ m, self.client_entry_module.chunkableView = some m →
      client_chunks as_root_chunk chunk_group self ctx =
        Except.ok (chunk_group ctx (as_root_chunk m ctx))) ∧
    (client_chunks as_root_chunk chunk_group self ctx =
        Except.error "dynamic client asset must be chunkable" ↔
      self.client_entry_module.chunkableView = none) := by
  refine ⟨?_, ?_, ?_⟩
  · intro h
    simp [client_chunks, h]
  · intro m h
    simp [client_chunks, h]
  · cases h : self.client_entry_module.chunkableView <;> simp [client_chunks, h]

theorem client_chunks_spec_witness :
    client_chunks (fun m _ => { chunkVal := m.chunkableId })
      (fun _ c => { assetIds := [c.chunkVal] })
      { client_entry_module := { moduleId := 1, chunkableView := some { chunkableId := 5 } } }
      (DynChunkingContext.otherKind 0) = Except.ok { assetIds := [5] } ∧
    client_chunks (fun m _ => { chunkVal := m.chunkableId })
      (fun _ c => { assetIds := [c.chunkVal] })
      { client_entry_module := { moduleId := 2, chunkableView := none } }
      (DynChunkingContext.otherKind 0) =
      Except.error "dynamic client asset must be chunkable" :=
  ⟨(client_chunks_spec _ _ _ _).2.1 _ rfl, (client_chunks_spec _ _ _ _).1 rfl⟩

/-- C8: content() on a dynamic marker module always fails with the asset
error (the marker is never a retrievable artifact) and references()
always returns the empty set of graph edges. -/
theorem dynamic_module_content_references (m : NextDynamicEntryModule) :
    m.content = Except.error "NextDynamicEntryModule has no content" ∧
    m.references = [] :=
  ⟨rfl, rfl⟩

theorem entrypoints_merge_conflict_iff_witness :
    imLookup (entrypoints (some [("/a", Route.endpoint 1)])
      [("/a", Route.endpoint 2), ("/b", Route.endpoint 3)]).routes "/a" =
      some Route.conflict ∧
    imLookup (entrypoints (some [("/a", Route.endpoint 1)])
      [("/a", Route.endpoint 2), ("/b", Route.endpoint 3)]).routes "/b" =
      imLookup [("/a", Route.endpoint 2), ("/b", Route.endpoint 3)] "/b" := by
  have h := entrypoints_merge_conflict_iff (some [("/a", Route.endpoint 1)])
    [("/a", Route.endpoint 2), ("/b", Route.endpoint 3)]
    (by decide) (by decide) (by decide) (by decide)
  exact ⟨(h.2 "/a").1 (by decide) (by decide), (h.2 "/b").2.2.1 (by decide) (by decide)⟩

theorem entrypoints_disjoint_union_witness :
    (entrypoints (some [("/a", Route.endpoint 1)]) [("/b", Route.endpoint 2)]).routes =
      [("/a", Route.endpoint 1), ("/b", Route.endpoint 2)] ∧
    (entrypoints none [("/b", Route.endpoint 2)]).routes = [("/b", Route.endpoint 2)] := by
  have h := entrypoints_disjoint_union [("/a", Route.endpoint 1)] [("/b", Route.endpoint 2)]
    (by decide) (by decide) (by decide) (by decide) (by decide)
  exact ⟨h.1, h.2.2.2⟩

theorem entrypoints_pages_duplicate_conflict_witness :
    imLookup (entrypoints none
      [("/a", Route.endpoint 1), ("/a", Route.endpoint 2)]).routes "/a" =
      some Route.conflict :=
  entrypoints_pages_duplicate_conflict none
    [("/a", Route.endpoint 1), ("/a", Route.endpoint 2)] "/a" (by decide)

theorem entrypoints_preserves_order_witness :
    keysOf (entrypoints (some [("/a", Route.endpoint 1), ("/c", Route.endpoint 2)])
      [("/a", Route.endpoint 3), ("/b", Route.endpoint 4)]).routes =
      ["/a", "/c", "/b"] ∧
    (keysOf (entrypoints (some [("/a", Route.endpoint 1), ("/c", Route.endpoint 2)])
      [("/a", Route.endpoint 3), ("/b", Route.endpoint 4)]).routes).indexOf "/a" =
      (keysOf [("/a", Route.endpoint 1), ("/c", Route.endpoint 2)]).indexOf "/a" := by
  have h := entrypoints_preserves_order
    [("/a", Route.endpoint 1), ("/c", Route.endpoint 2)]
    [("/a", Route.endpoint 3), ("/b", Route.endpoint 4)] (by decide) (by decide)
  refine ⟨?_, h.2 "/a" (by decide)⟩
  rw [h.1]
  decide
